import Mathlib

/-!
A verification development for the `andi` dependency-injection planner
(`andi/andi.py`, `andi/errors.py`).  The planner is shallowly embedded:
nodes (classes/functions) are natural numbers, the introspector
(`inspect`) is an environment field, Python's ordered dictionaries are
association lists with Python's insertion/overwrite semantics, and the
unbounded recursion of `_plan` is made total with an explicit fuel
parameter (fuel exhaustion is reported as a distinct outcome and never
identified with any behaviour of the source).
-/

set_option autoImplicit false

namespace Andi

/-- A node of the dependency graph: an opaque identity standing for a
Python class or function (`class_or_func` in the source). -/
abbrev Node := Nat

/-- Type `KwargsSpec` from `andi.py`: an insertion-ordered dict mapping an
argument name to the node chosen to build that argument. -/
abbrev KwargsSpec := List (String × Node)

/-- One step of a plan: `Tuple[Callable, KwargsSpec]` in the source. -/
abbrev Step := Node × KwargsSpec

/-- Class `Plan` from `andi.py`: the ordered steps plus the
`full_final_kwargs` attribute set in `Plan.__init__`. -/
structure Plan where
  steps : List Step
  full_final_kwargs : Bool
deriving DecidableEq, Repr

/-- An overrides function (`OverrideFn` in the source):
maps a node to an optional replacement node. -/
abbrev Ov := Node → Option Node

/-- The environment of a planning call: the two policy predicates
(already normalised to functions, as `_ensure_can_provide_func` does)
and the external introspector `inspect`, which returns the ordered
parameter list of a node with the candidate types of each parameter. -/
structure Env where
  is_injectable : Node → Bool
  externally_provided : Node → Bool
  requirements : Node → List (String × List Node)

/-- The error cases of `andi/errors.py`:
`CyclicDependencyErrCase`, `LackingAnnotationErrCase` (here
`lackingAnn`), `NonInjectableOrExternalErrCase`. -/
inductive ErrCase where
  | cyclic (class_or_func : Node) (dependency_stack : List Node)
  | lackingAnn (argname : String) (class_or_func : Node)
  | nonInjectableOrExternal (argname : String) (class_or_func : Node) (types : List Node)
deriving DecidableEq, Repr

/-- Outcome of a `_plan` call.  `ok` is a normal return of
`(plan, errors)`; `raised` is the `NonProvidableError` raised at the
root (carrying `class_or_func` and the per-argument error map);
`assertFail` is a failure of the `assert` statement in `_plan`;
`outOfFuel` means the fuel bound of the embedding was reached. -/
inductive PResult where
  | ok (plan : Plan) (errors : List ErrCase)
  | raised (class_or_func : Node) (errs : List (String × List ErrCase))
  | assertFail
  | outOfFuel
deriving DecidableEq, Repr

/-- The mutable state of the argument loop in `_plan`: `plan_od`,
`type_for_arg`, `args_errs` and `non_injectable_errs`. -/
structure LoopState where
  plan_od : List (Node × KwargsSpec)
  type_for_arg : KwargsSpec
  args_errs : List (String × List ErrCase)
  non_injectable_errs : List (String × List ErrCase)
deriving Repr

/-- Outcome of the argument loop: either the final state, or an
abnormal result propagated from a recursive `_plan` call. -/
inductive LoopOut where
  | done (s : LoopState)
  | abnormal (r : PResult)

/-- Keys of an ordered dict represented as an association list. -/
def keys {α β : Type} (od : List (α × β)) : List α :=
  od.map Prod.fst

/-- Python `k in d` on an ordered dict. -/
def odContains {β : Type} (od : List (Node × β)) (k : Node) : Bool :=
  od.any (fun p => p.1 == k)

/-- Python `d[k] = v` on an ordered dict: overwrite in place if the key
exists (keeping its position), append otherwise. -/
def odInsert {α β : Type} [DecidableEq α] (od : List (α × β)) (k : α) (v : β) :
    List (α × β) :=
  match od with
  | [] => [(k, v)]
  | (k', v') :: rest =>
    if k' = k then (k, v) :: rest else (k', v') :: odInsert rest k v

/-- Python `d.update(pairs)` on an ordered dict. -/
def odUpdate {α β : Type} [DecidableEq α] (od new : List (α × β)) : List (α × β) :=
  new.foldl (fun acc kv => odInsert acc kv.1 kv.2) od

/-- Python `defaultdict(list); d[k].extend(vs)`: extend the list at `k`
in place, creating the key at the end if absent. -/
def odExtend {α β : Type} [DecidableEq α] (od : List (α × List β)) (k : α)
    (vs : List β) : List (α × List β) :=
  match od with
  | [] => [(k, vs)]
  | (k', v') :: rest =>
    if k' = k then (k', v' ++ vs) :: rest else (k', v') :: odExtend rest k vs

/-- The flattening of the per-argument error map performed at the end
of `_plan` (`[error for errors in args_errs.values() for error in errors]`). -/
def flattenErrs (m : List (String × List ErrCase)) : List ErrCase :=
  m.foldr (fun p acc => p.2 ++ acc) []

/-- Function `_empty_overrides` from `andi.py`. -/
def _empty_overrides : Ov := fun _ => none

/-- Function `_may_override` from `andi.py`: apply the overrides function to a
node; when an actual replacement happens and `recursive_overrides` is
false, children get `_empty_overrides`. -/
def _may_override (class_or_func : Node) (overrides : Ov)
    (recursive_overrides : Bool) : Node × Ov :=
  match overrides class_or_func with
  | none => (class_or_func, overrides)
  | some o =>
    if o = class_or_func then (class_or_func, overrides)
    else (o, if recursive_overrides then overrides else _empty_overrides)

/-- Function `_select_type` from `andi.py`: choose the first candidate that,
after overrides, is injectable or externally provided; also return the
overrides function for its children. -/
def _select_type (env : Env) : List Node → Ov → Bool → Option Node × Ov
  | [], overrides, _ => (none, overrides)
  | c :: rest, overrides, recursive_overrides =>
    let r := _may_override c overrides recursive_overrides
    if (env.is_injectable r.1 || env.externally_provided r.1) = true then
      (some r.1, r.2)
    else _select_type env rest overrides recursive_overrides

/-- The `for argname, types in arguments.items()` loop of `_plan`.
`recur` is the recursive planning call for a selected dependency
(already carrying `full_final_kwargs=True` and the extended dependency
stack, as at the call site in the source). -/
def _planArgs (env : Env) (recur : Node → Ov → PResult) (class_or_func : Node)
    (overrides : Ov) (recursive_overrides : Bool) :
    List (String × List Node) → LoopState → LoopOut
  | [], s => .done s
  | (argname, types) :: rest, s =>
    match _select_type env types overrides recursive_overrides with
    | (some sel_cls, arg_overrides) =>
      if odContains s.plan_od sel_cls = true then
        _planArgs env recur class_or_func overrides recursive_overrides rest
          ⟨s.plan_od, odInsert s.type_for_arg argname sel_cls,
           s.args_errs, s.non_injectable_errs⟩
      else
        match recur sel_cls arg_overrides with
        | .ok subplan errors =>
          if errors.isEmpty = true then
            _planArgs env recur class_or_func overrides recursive_overrides rest
              ⟨odUpdate s.plan_od subplan.steps,
               odInsert s.type_for_arg argname sel_cls,
               s.args_errs, s.non_injectable_errs⟩
          else
            _planArgs env recur class_or_func overrides recursive_overrides rest
              ⟨odUpdate s.plan_od subplan.steps, s.type_for_arg,
               odExtend s.args_errs argname errors, s.non_injectable_errs⟩
        | r => .abnormal r
    | (none, _) =>
      let err : ErrCase :=
        if types.isEmpty = true then ErrCase.lackingAnn argname class_or_func
        else ErrCase.nonInjectableOrExternal argname class_or_func types
      _planArgs env recur class_or_func overrides recursive_overrides rest
        ⟨s.plan_od, s.type_for_arg, s.args_errs,
         odExtend s.non_injectable_errs argname [err]⟩

/-- Last stage of `_plan`: the root `raise` of `NonProvidableError` and
the plan filling, given the final value of `args_errs`. -/
def finishErrs (class_or_func : Node) (dependency_stack : List Node)
    (s : LoopState) (args_errs : List (String × List ErrCase)) : PResult :=
  if (dependency_stack.isEmpty && !args_errs.isEmpty) = true then
    .raised class_or_func args_errs
  else
    .ok ⟨(if args_errs.isEmpty = true then
            odInsert s.plan_od class_or_func s.type_for_arg
          else s.plan_od),
         s.non_injectable_errs.isEmpty⟩
      (flattenErrs args_errs)

/-- Error managing of `_plan`: under `full_final_kwargs` the
non-injectable errors are folded into `args_errs`. -/
def finishDone (class_or_func : Node) (full_final_kwargs : Bool)
    (dependency_stack : List Node) (s : LoopState) : PResult :=
  match full_final_kwargs with
  | true => finishErrs class_or_func dependency_stack s
      (odUpdate s.args_errs s.non_injectable_errs)
  | false => finishErrs class_or_func dependency_stack s s.args_errs

/-- The tail of `_plan` after the argument loop: error managing
(`args_errs.update(non_injectable_errs)` under `full_final_kwargs`,
the root `raise`) and plan filling; abnormal outcomes of recursive
calls propagate unchanged. -/
def finishPlan (class_or_func : Node) (full_final_kwargs : Bool)
    (dependency_stack : List Node) : LoopOut → PResult
  | .abnormal r => r
  | .done s => finishDone class_or_func full_final_kwargs dependency_stack s

/-- Function `_plan` from `andi.py`, with an explicit fuel bound on the
recursion depth.  The branches are, in source order: the
externally-provided short-circuit, the injectability assertion, the
cycle check, then the argument loop (each recursive call uses
`full_final_kwargs=True` and the stack extended with this node) and
`finishPlan`. -/
def _plan (env : Env) : Nat → Node → Bool → List Node → Ov → Bool → PResult
  | 0, _, _, _, _, _ => .outOfFuel
  | fuel + 1, class_or_func, full_final_kwargs, dependency_stack, overrides,
    recursive_overrides =>
    if env.externally_provided class_or_func = true then
      .ok ⟨[(class_or_func, [])], true⟩ []
    else if !(dependency_stack.isEmpty || env.is_injectable class_or_func) = true then
      .assertFail
    else if class_or_func ∈ dependency_stack then
      .ok ⟨[], false⟩ [ErrCase.cyclic class_or_func dependency_stack]
    else
      finishPlan class_or_func full_final_kwargs dependency_stack
        (_planArgs env
          (fun n o =>
            _plan env fuel n true (dependency_stack ++ [class_or_func]) o
              recursive_overrides)
          class_or_func overrides recursive_overrides
          (env.requirements class_or_func) ⟨[], [], [], []⟩)

/-- Function `plan` from `andi.py` (the public entry point), after the policy
arguments have been normalised to functions: apply `_may_override` to
the root and run `_plan` with an empty dependency stack. -/
def plan (env : Env) (fuel : Nat) (class_or_func : Node)
    (full_final_kwargs : Bool) (overrides : Ov)
    (recursive_overrides : Bool) : PResult :=
  let r := _may_override class_or_func overrides recursive_overrides
  _plan env fuel r.1 full_final_kwargs [] r.2 recursive_overrides

/-- Worker for `topoOk`: `seen` is the set of nodes of earlier steps. -/
def topoOkGo (seen : List Node) : List Step → Bool
  | [] => true
  | (n, kw) :: rest => kw.all (fun p => p.2 ∈ seen) && topoOkGo (n :: seen) rest

/-- The topological-validity property of the specification: every node
referenced as a value in a step's kwargs appears as the node of a
strictly earlier step. -/
def topoOk (steps : List Step) : Bool :=
  topoOkGo [] steps

/-- Whether a planning outcome is a failure of the `assert` statement
in `_plan`. -/
def isAssertFail : PResult → Bool
  | .assertFail => true
  | _ => false

/-! ### Ordered-dict lemmas -/

@[simp] theorem keys_nil {α β : Type} : keys ([] : List (α × β)) = [] := rfl

@[simp] theorem keys_cons {α β : Type} (hd : α × β) (tl : List (α × β)) :
    keys (hd :: tl) = hd.1 :: keys tl := rfl

@[simp] theorem keys_append {α β : Type} (l₁ l₂ : List (α × β)) :
    keys (l₁ ++ l₂) = keys l₁ ++ keys l₂ :=
  List.map_append _ _ _

theorem odInsert_ne_nil {α β : Type} [DecidableEq α] (od : List (α × β)) (k : α)
    (v : β) : odInsert od k v ≠ [] := by
  cases od with
  | nil => simp [odInsert]
  | cons hd tl =>
    obtain ⟨k', v'⟩ := hd
    simp only [odInsert]
    split <;> simp

theorem mem_keys_odInsert {α β : Type} [DecidableEq α] (od : List (α × β))
    (k a : α) (v : β) :
    a ∈ keys (odInsert od k v) ↔ a ∈ keys od ∨ a = k := by
  induction od with
  | nil => simp [odInsert]
  | cons hd tl ih =>
    obtain ⟨k', v'⟩ := hd
    by_cases h : k' = k
    · subst h
      rw [odInsert, if_pos rfl]
      simp only [keys_cons, List.mem_cons]
      tauto
    · rw [odInsert, if_neg h]
      simp only [keys_cons, List.mem_cons, ih]
      tauto

theorem odInsert_of_not_mem {α β : Type} [DecidableEq α] (od : List (α × β))
    (k : α) (v : β) (h : k ∉ keys od) :
    odInsert od k v = od ++ [(k, v)] := by
  induction od with
  | nil => simp [odInsert]
  | cons hd tl ih =>
    obtain ⟨k', v'⟩ := hd
    simp only [keys_cons, List.mem_cons, not_or] at h
    have hne : ¬ (k' = k) := fun hk => h.1 hk.symm
    rw [odInsert, if_neg hne, ih h.2]
    rfl

theorem nodup_keys_odInsert {α β : Type} [DecidableEq α] (od : List (α × β))
    (k : α) (v : β) (h : (keys od).Nodup) :
    (keys (odInsert od k v)).Nodup := by
  induction od with
  | nil => simp [odInsert]
  | cons hd tl ih =>
    obtain ⟨k', v'⟩ := hd
    simp only [keys_cons, List.nodup_cons] at h
    by_cases h' : k' = k
    · subst h'
      rw [odInsert, if_pos rfl]
      simp only [keys_cons, List.nodup_cons]
      exact h
    · rw [odInsert, if_neg h']
      simp only [keys_cons, List.nodup_cons]
      refine ⟨fun hmem => ?_, ih h.2⟩
      rw [mem_keys_odInsert] at hmem
      rcases hmem with hmem | hmem
      · exact h.1 hmem
      · exact h' hmem

theorem mem_keys_odUpdate {α β : Type} [DecidableEq α] (new od : List (α × β))
    (a : α) :
    a ∈ keys (odUpdate od new) ↔ a ∈ keys od ∨ a ∈ keys new := by
  induction new generalizing od with
  | nil => simp [odUpdate]
  | cons hd tl ih =>
    obtain ⟨k, v⟩ := hd
    show a ∈ keys (odUpdate (odInsert od k v) tl) ↔ _
    rw [ih, mem_keys_odInsert]
    simp only [keys_cons, List.mem_cons]
    tauto

theorem nodup_keys_odUpdate {α β : Type} [DecidableEq α] (new od : List (α × β))
    (h : (keys od).Nodup) : (keys (odUpdate od new)).Nodup := by
  induction new generalizing od with
  | nil => exact h
  | cons hd tl ih => exact ih _ (nodup_keys_odInsert _ _ _ h)

theorem odUpdate_eq_nil {α β : Type} [DecidableEq α] {od new : List (α × β)}
    (h : odUpdate od new = []) : od = [] ∧ new = [] := by
  induction new generalizing od with
  | nil => exact ⟨h, rfl⟩
  | cons hd tl ih =>
    have hih := @ih (odInsert od hd.1 hd.2) h
    exact absurd hih.1 (odInsert_ne_nil _ _ _)

theorem mem_keys_odExtend {α β : Type} [DecidableEq α] (od : List (α × List β))
    (k a : α) (vs : List β) :
    a ∈ keys (odExtend od k vs) ↔ a ∈ keys od ∨ a = k := by
  induction od with
  | nil => simp [odExtend]
  | cons hd tl ih =>
    obtain ⟨k', v'⟩ := hd
    by_cases h : k' = k
    · subst h
      rw [odExtend, if_pos rfl]
      simp only [keys_cons, List.mem_cons]
      tauto
    · rw [odExtend, if_neg h]
      simp only [keys_cons, List.mem_cons, ih]
      tauto

theorem odExtend_ne_nil {α β : Type} [DecidableEq α] (od : List (α × List β))
    (k : α) (vs : List β) : odExtend od k vs ≠ [] := by
  cases od with
  | nil => simp [odExtend]
  | cons hd tl =>
    obtain ⟨k', v'⟩ := hd
    simp only [odExtend]
    split <;> simp

/-! ### Unfolding and selector lemmas -/

theorem _plan_zero (env : Env) (n : Node) (ffk : Bool) (stack : List Node)
    (ov : Ov) (rov : Bool) : _plan env 0 n ffk stack ov rov = .outOfFuel :=
  rfl

theorem _plan_succ (env : Env) (fuel : Nat) (n : Node) (ffk : Bool)
    (stack : List Node) (ov : Ov) (rov : Bool) :
    _plan env (fuel + 1) n ffk stack ov rov =
      if env.externally_provided n = true then
        .ok ⟨[(n, [])], true⟩ []
      else if !(stack.isEmpty || env.is_injectable n) = true then
        .assertFail
      else if n ∈ stack then
        .ok ⟨[], false⟩ [ErrCase.cyclic n stack]
      else
        finishPlan n ffk stack
          (_planArgs env (fun m o => _plan env fuel m true (stack ++ [n]) o rov)
            n ov rov (env.requirements n) ⟨[], [], [], []⟩) :=
  rfl

theorem select_type_some (env : Env) (types : List Node) (ov o' : Ov)
    (rov : Bool) (c : Node)
    (h : _select_type env types ov rov = (some c, o')) :
    (env.is_injectable c || env.externally_provided c) = true := by
  induction types with
  | nil => simp [_select_type] at h
  | cons hd tl ih =>
    rw [_select_type] at h
    by_cases hc : (env.is_injectable (_may_override hd ov rov).1
        || env.externally_provided (_may_override hd ov rov).1) = true
    · rw [if_pos hc] at h
      obtain ⟨h1, _⟩ := Prod.mk.injEq .. ▸ h
      cases h
      exact hc
    · rw [if_neg hc] at h
      exact ih h

/-! ### Lemmas about the argument loop -/

theorem planArgs_abnormal_not_ok (env : Env) (recur : Node → Ov → PResult)
    (node : Node) (ov : Ov) (rov : Bool) :
    ∀ (args : List (String × List Node)) (s : LoopState) (r : PResult),
      _planArgs env recur node ov rov args s = .abnormal r →
      ∀ (pl : Plan) (er : List ErrCase), r ≠ .ok pl er := by
  intro args
  induction args with
  | nil =>
    intro s r h
    simp [_planArgs] at h
  | cons hd tl ih =>
    obtain ⟨argname, types⟩ := hd
    intro s r h
    rw [_planArgs] at h
    split at h
    · split at h
      · exact ih _ _ h
      · split at h
        · split at h
          · exact ih _ _ h
          · exact ih _ _ h
        · rename_i hne
          cases h
          intro pl er hok
          exact hne _ _ hok
    · exact ih _ _ h

theorem planArgs_nodup (env : Env) (recur : Node → Ov → PResult)
    (node : Node) (ov : Ov) (rov : Bool) :
    ∀ (args : List (String × List Node)) (s s' : LoopState),
      _planArgs env recur node ov rov args s = .done s' →
      (keys s.plan_od).Nodup → (keys s'.plan_od).Nodup := by
  intro args
  induction args with
  | nil =>
    intro s s' h hs
    simp only [_planArgs, LoopOut.done.injEq] at h
    exact h ▸ hs
  | cons hd tl ih =>
    obtain ⟨argname, types⟩ := hd
    intro s s' h hs
    rw [_planArgs] at h
    split at h
    · split at h
      · exact ih _ _ h hs
      · split at h
        · split at h
          · exact ih _ _ h (nodup_keys_odUpdate _ _ hs)
          · exact ih _ _ h (nodup_keys_odUpdate _ _ hs)
        · cases h
    · exact ih _ _ h hs

theorem planArgs_keysQ (env : Env) (recur : Node → Ov → PResult)
    (node : Node) (ov : Ov) (rov : Bool) (Q : Node → Prop)
    (hrec : ∀ n o pl er, recur n o = .ok pl er → ∀ k ∈ keys pl.steps, Q k) :
    ∀ (args : List (String × List Node)) (s s' : LoopState),
      _planArgs env recur node ov rov args s = .done s' →
      (∀ k ∈ keys s.plan_od, Q k) → ∀ k ∈ keys s'.plan_od, Q k := by
  intro args
  induction args with
  | nil =>
    intro s s' h hs
    simp only [_planArgs, LoopOut.done.injEq] at h
    exact h ▸ hs
  | cons hd tl ih =>
    obtain ⟨argname, types⟩ := hd
    intro s s' h hs
    rw [_planArgs] at h
    split at h
    · split at h
      · exact ih _ _ h hs
      · split at h
        · rename_i subplan errors hr
          have hsub : ∀ k ∈ keys (odUpdate s.plan_od subplan.steps), Q k := by
            intro k hk
            rw [mem_keys_odUpdate] at hk
            rcases hk with hk | hk
            · exact hs k hk
            · exact hrec _ _ _ _ hr k hk
          split at h
          · exact ih _ _ h hsub
          · exact ih _ _ h hsub
        · cases h
    · exact ih _ _ h hs

theorem planArgs_no_assert (env : Env) (recur : Node → Ov → PResult)
    (node : Node) (ov : Ov) (rov : Bool)
    (hrec : ∀ n o, (env.is_injectable n || env.externally_provided n) = true →
      recur n o ≠ .assertFail) :
    ∀ (args : List (String × List Node)) (s : LoopState),
      _planArgs env recur node ov rov args s ≠ .abnormal .assertFail := by
  intro args
  induction args with
  | nil =>
    intro s h
    simp [_planArgs] at h
  | cons hd tl ih =>
    obtain ⟨argname, types⟩ := hd
    intro s h
    rw [_planArgs] at h
    split at h
    · rename_i sel_cls arg_overrides hsel
      split at h
      · exact ih _ h
      · split at h
        · split at h
          · exact ih _ h
          · exact ih _ h
        · injection h with h'
          exact hrec _ _ (select_type_some env types ov _ rov _ hsel) h'
    · exact ih _ h

/-! ### Lemmas about `_plan` -/

theorem flattenErrs_nil : flattenErrs [] = [] := rfl

theorem finishDone_root_ok (n : Node) (ffk : Bool) (s : LoopState) (p : Plan)
    (errs : List ErrCase) (h : finishDone n ffk [] s = .ok p errs) :
    errs = [] ∧ s.args_errs = [] ∧ (ffk = true → s.non_injectable_errs = []) ∧
      p = ⟨odInsert s.plan_od n s.type_for_arg, s.non_injectable_errs.isEmpty⟩ := by
  cases ffk with
  | true =>
    rw [finishDone] at h
    rw [finishErrs] at h
    split at h
    · cases h
    · rename_i hcond
      have hae : odUpdate s.args_errs s.non_injectable_errs = [] := by
        by_contra hne
        exact hcond (by simp [List.isEmpty_iff, hne])
      rw [hae] at h
      have htriv : (([] : List (String × List ErrCase)).isEmpty = true) := rfl
      rw [if_pos htriv] at h
      injection h with hp herrs
      obtain ⟨h1, h2⟩ := odUpdate_eq_nil hae
      exact ⟨herrs.symm ▸ flattenErrs_nil, h1, fun _ => h2, hp.symm⟩
  | false =>
    rw [finishDone] at h
    rw [finishErrs] at h
    split at h
    · cases h
    · rename_i hcond
      have hae : s.args_errs = [] := by
        by_contra hne
        exact hcond (by simp [List.isEmpty_iff, hne])
      rw [hae] at h
      have htriv : (([] : List (String × List ErrCase)).isEmpty = true) := rfl
      rw [if_pos htriv] at h
      injection h with hp herrs
      exact ⟨herrs.symm ▸ flattenErrs_nil, hae, fun hc => absurd hc (by simp),
        hp.symm⟩

theorem finishDone_ok_steps (n : Node) (ffk : Bool) (stack : List Node)
    (s : LoopState) (p : Plan) (errs : List ErrCase)
    (h : finishDone n ffk stack s = .ok p errs) :
    p.steps = odInsert s.plan_od n s.type_for_arg ∨ p.steps = s.plan_od := by
  cases ffk with
  | true =>
    rw [finishDone] at h
    rw [finishErrs] at h
    split at h
    · cases h
    · injection h with hp herrs
      rw [← hp]
      dsimp only
      split
      · exact Or.inl rfl
      · exact Or.inr rfl
  | false =>
    rw [finishDone] at h
    rw [finishErrs] at h
    split at h
    · cases h
    · injection h with hp herrs
      rw [← hp]
      dsimp only
      split
      · exact Or.inl rfl
      · exact Or.inr rfl

theorem finishDone_ne_assert (n : Node) (ffk : Bool) (stack : List Node)
    (s : LoopState) : finishDone n ffk stack s ≠ .assertFail := by
  intro h
  cases ffk with
  | true =>
    rw [finishDone] at h
    rw [finishErrs] at h
    split at h
    · cases h
    · cases h
  | false =>
    rw [finishDone] at h
    rw [finishErrs] at h
    split at h
    · cases h
    · cases h

theorem _plan_ok_nodup (env : Env) (fuel : Nat) (n : Node) (ffk : Bool)
    (stack : List Node) (ov : Ov) (rov : Bool) (p : Plan) (errs : List ErrCase)
    (h : _plan env fuel n ffk stack ov rov = .ok p errs) :
    (keys p.steps).Nodup := by
  cases fuel with
  | zero => cases h
  | succ fuel =>
    rw [_plan_succ] at h
    split at h
    · cases h
      simp
    · split at h
      · cases h
      · split at h
        · cases h
          simp
        · cases hloop : _planArgs env
              (fun m o => _plan env fuel m true (stack ++ [n]) o rov)
              n ov rov (env.requirements n) ⟨[], [], [], []⟩ with
          | abnormal r =>
            rw [hloop, finishPlan] at h
            exact absurd h
              (planArgs_abnormal_not_ok env _ n ov rov _ _ _ hloop p errs)
          | done s =>
            rw [hloop, finishPlan] at h
            have hs : (keys s.plan_od).Nodup :=
              planArgs_nodup env _ n ov rov _ _ _ hloop (by simp)
            rcases finishDone_ok_steps n ffk stack s p errs h with hst | hst
            · rw [hst]
              exact nodup_keys_odInsert _ _ _ hs
            · rw [hst]
              exact hs

theorem _plan_ok_keys (env : Env) : ∀ (fuel : Nat) (n : Node) (ffk : Bool)
    (stack : List Node) (ov : Ov) (rov : Bool) (p : Plan) (errs : List ErrCase),
    _plan env fuel n ffk stack ov rov = .ok p errs →
    ∀ k ∈ keys p.steps, env.externally_provided k = true ∨ k ∉ stack := by
  intro fuel
  induction fuel with
  | zero => intro n ffk stack ov rov p errs h; cases h
  | succ fuel ih =>
    intro n ffk stack ov rov p errs h
    rw [_plan_succ] at h
    split at h
    · rename_i hext
      cases h
      intro k hk
      simp only [keys_cons, keys_nil, List.mem_singleton] at hk
      exact Or.inl (hk ▸ hext)
    · split at h
      · cases h
      · split at h
        · cases h
          intro k hk
          simp at hk
        · rename_i hext hinj hmem
          cases hloop : _planArgs env
              (fun m o => _plan env fuel m true (stack ++ [n]) o rov)
              n ov rov (env.requirements n) ⟨[], [], [], []⟩ with
          | abnormal r =>
            rw [hloop, finishPlan] at h
            exact absurd h
              (planArgs_abnormal_not_ok env _ n ov rov _ _ _ hloop p errs)
          | done s =>
            rw [hloop, finishPlan] at h
            have hkeys : ∀ k ∈ keys s.plan_od,
                env.externally_provided k = true ∨ k ∉ stack ++ [n] := by
              refine planArgs_keysQ env _ n ov rov _ ?_ _ _ _ hloop (by simp)
              intro m o pl er hrec k hk
              exact ih m true (stack ++ [n]) o rov pl er hrec k hk
            have hkeys' : ∀ k ∈ keys s.plan_od,
                env.externally_provided k = true ∨ k ∉ stack := by
              intro k hk
              rcases hkeys k hk with hk' | hk'
              · exact Or.inl hk'
              · exact Or.inr (fun hc => hk' (List.mem_append_left _ hc))
            rcases finishDone_ok_steps n ffk stack s p errs h with hst | hst
            · rw [hst]
              intro k hk
              rw [mem_keys_odInsert] at hk
              rcases hk with hk | hk
              · exact hkeys' k hk
              · exact Or.inr (hk ▸ hmem)
            · rw [hst]
              exact hkeys'

theorem _plan_no_assert (env : Env) : ∀ (fuel : Nat) (n : Node) (ffk : Bool)
    (stack : List Node) (ov : Ov) (rov : Bool),
    (stack.isEmpty || env.is_injectable n || env.externally_provided n) = true →
    _plan env fuel n ffk stack ov rov ≠ .assertFail := by
  intro fuel
  induction fuel with
  | zero => intro n ffk stack ov rov hn h; cases h
  | succ fuel ih =>
    intro n ffk stack ov rov hn h
    rw [_plan_succ] at h
    split at h
    · cases h
    · split at h
      · rename_i hext hguard
        have hg : (stack.isEmpty || env.is_injectable n) = false := by
          simpa using hguard
        rw [Bool.or_eq_false_iff] at hg
        simp only [Bool.or_eq_true] at hn
        rcases hn with (hn | hn) | hn
        · rw [hn] at hg
          exact absurd hg.1 (by simp)
        · rw [hn] at hg
          exact absurd hg.2 (by simp)
        · exact hext hn
      · split at h
        · cases h
        · cases hloop : _planArgs env
              (fun m o => _plan env fuel m true (stack ++ [n]) o rov)
              n ov rov (env.requirements n) ⟨[], [], [], []⟩ with
          | abnormal r =>
            rw [hloop, finishPlan] at h
            rw [h] at hloop
            refine planArgs_no_assert env _ n ov rov ?_ _ _ hloop
            intro m o hm
            refine ih m true (stack ++ [n]) o rov ?_
            simp only [Bool.or_eq_true] at hm ⊢
            tauto
          | done s =>
            rw [hloop, finishPlan] at h
            exact finishDone_ne_assert n ffk stack s h

theorem _plan_root_ok_spec (env : Env) (fuel : Nat) (n : Node) (ffk : Bool)
    (ov : Ov) (rov : Bool) (p : Plan) (errs : List ErrCase)
    (hext : env.externally_provided n = false)
    (h : _plan env (fuel + 1) n ffk [] ov rov = .ok p errs) :
    ∃ s : LoopState,
      _planArgs env (fun m o => _plan env fuel m true [n] o rov) n ov rov
          (env.requirements n) ⟨[], [], [], []⟩ = .done s
      ∧ errs = [] ∧ s.args_errs = [] ∧ (ffk = true → s.non_injectable_errs = [])
      ∧ p = ⟨s.plan_od ++ [(n, s.type_for_arg)], s.non_injectable_errs.isEmpty⟩ := by
  rw [_plan_succ] at h
  split at h
  · rename_i hx
    exact absurd hx (by simp [hext])
  · split at h
    · cases h
    · split at h
      · rename_i hmem
        exact absurd hmem (List.not_mem_nil n)
      · cases hloop : _planArgs env
            (fun m o => _plan env fuel m true ([] ++ [n]) o rov)
            n ov rov (env.requirements n) ⟨[], [], [], []⟩ with
        | abnormal r =>
          rw [hloop, finishPlan] at h
          exact absurd h
            (planArgs_abnormal_not_ok env _ n ov rov _ _ _ hloop p errs)
        | done s =>
          rw [hloop, finishPlan] at h
          obtain ⟨herrs, hae, hni, hp⟩ := finishDone_root_ok n ffk s p errs h
          have hkeys : ∀ k ∈ keys s.plan_od,
              env.externally_provided k = true ∨ k ∉ ([] ++ [n] : List Node) := by
            refine planArgs_keysQ env _ n ov rov _ ?_ _ _ _ hloop (by simp)
            intro m o pl er hrec k hk
            exact _plan_ok_keys env fuel m true ([] ++ [n]) o rov pl er hrec k hk
          have hnot : n ∉ keys s.plan_od := by
            intro hc
            rcases hkeys n hc with h1 | h1
            · rw [hext] at h1
              cases h1
            · exact h1 (by simp)
          refine ⟨s, hloop, herrs, hae, hni, ?_⟩
          rw [hp, odInsert_of_not_mem _ _ _ hnot]

theorem planArgs_names (env : Env) (recur : Node → Ov → PResult)
    (node : Node) (ov : Ov) (rov : Bool) :
    ∀ (args : List (String × List Node)) (s s' : LoopState),
      _planArgs env recur node ov rov args s = .done s' →
      (keys args).Nodup →
      (∀ a ∈ keys args, a ∉ keys s.type_for_arg ∧ a ∉ keys s.args_errs ∧
        a ∉ keys s.non_injectable_errs) →
      (∀ a ∈ keys s.type_for_arg, a ∉ keys s.non_injectable_errs) →
      ((∀ a ∈ keys args, a ∈ keys s'.type_for_arg ∨ a ∈ keys s'.args_errs ∨
          a ∈ keys s'.non_injectable_errs)
        ∧ (∀ a ∈ keys s'.type_for_arg, a ∉ keys s'.non_injectable_errs)
        ∧ (∀ a ∈ keys s'.non_injectable_errs,
            a ∈ keys s.non_injectable_errs ∨ a ∈ keys args)
        ∧ (∀ a ∈ keys s.type_for_arg, a ∈ keys s'.type_for_arg)
        ∧ (∀ a ∈ keys s.args_errs, a ∈ keys s'.args_errs)
        ∧ (∀ a ∈ keys s.non_injectable_errs, a ∈ keys s'.non_injectable_errs)) := by
  intro args
  induction args with
  | nil =>
    intro s s' h hnd hfresh hdisj
    simp only [_planArgs, LoopOut.done.injEq] at h
    subst h
    exact ⟨fun a ha => absurd ha (by simp), hdisj, fun a ha => Or.inl ha,
      fun a ha => ha, fun a ha => ha, fun a ha => ha⟩
  | cons hd tl ih =>
    obtain ⟨argname, types⟩ := hd
    intro s s' h hnd hfresh hdisj
    simp only [keys_cons, List.nodup_cons] at hnd
    have hfreshhd := hfresh argname (by simp)
    have hfreshtl : ∀ a ∈ keys tl, a ∉ keys s.type_for_arg ∧
        a ∉ keys s.args_errs ∧ a ∉ keys s.non_injectable_errs := by
      intro a ha
      exact hfresh a (by simp [ha])
    have hnetl : ∀ a ∈ keys tl, ¬ a = argname := by
      intro a ha hc
      exact hnd.1 (hc ▸ ha)
    rw [_planArgs] at h
    split at h
    · rename_i sel_cls arg_overrides hsel
      split at h
      · -- already planned: only type_for_arg changes
        obtain ⟨hcov, hdis, hsrc, hmtfa, hmae, hmni⟩ := ih _ _ h hnd.2
          (by
            intro a ha
            have hf := hfreshtl a ha
            refine ⟨?_, hf.2.1, hf.2.2⟩
            rw [mem_keys_odInsert]
            rintro (hc | hc)
            · exact hf.1 hc
            · exact hnetl a ha hc)
          (by
            intro a ha
            rw [mem_keys_odInsert] at ha
            rcases ha with ha | ha
            · exact hdisj a ha
            · subst ha
              exact hfreshhd.2.2)
        refine ⟨?_, hdis, ?_, ?_, hmae, hmni⟩
        · intro a ha
          simp only [keys_cons, List.mem_cons] at ha
          rcases ha with ha | ha
          · subst ha
            exact Or.inl (hmtfa a (by rw [mem_keys_odInsert]; exact Or.inr rfl))
          · exact hcov a ha
        · intro a ha
          rcases hsrc a ha with ha' | ha'
          · exact Or.inl ha'
          · exact Or.inr (by simp [ha'])
        · intro a ha
          exact hmtfa a (by rw [mem_keys_odInsert]; exact Or.inl ha)
      · split at h
        · split at h
          · -- recursed without errors: plan_od and type_for_arg change
            obtain ⟨hcov, hdis, hsrc, hmtfa, hmae, hmni⟩ := ih _ _ h hnd.2
              (by
                intro a ha
                have hf := hfreshtl a ha
                refine ⟨?_, hf.2.1, hf.2.2⟩
                rw [mem_keys_odInsert]
                rintro (hc | hc)
                · exact hf.1 hc
                · exact hnetl a ha hc)
              (by
                intro a ha
                rw [mem_keys_odInsert] at ha
                rcases ha with ha | ha
                · exact hdisj a ha
                · subst ha
                  exact hfreshhd.2.2)
            refine ⟨?_, hdis, ?_, ?_, hmae, hmni⟩
            · intro a ha
              simp only [keys_cons, List.mem_cons] at ha
              rcases ha with ha | ha
              · subst ha
                exact Or.inl (hmtfa a (by rw [mem_keys_odInsert]; exact Or.inr rfl))
              · exact hcov a ha
            · intro a ha
              rcases hsrc a ha with ha' | ha'
              · exact Or.inl ha'
              · exact Or.inr (by simp [ha'])
            · intro a ha
              exact hmtfa a (by rw [mem_keys_odInsert]; exact Or.inl ha)
          · -- recursed with errors: plan_od and args_errs change
            obtain ⟨hcov, hdis, hsrc, hmtfa, hmae, hmni⟩ := ih _ _ h hnd.2
              (by
                intro a ha
                have hf := hfreshtl a ha
                refine ⟨hf.1, ?_, hf.2.2⟩
                rw [mem_keys_odExtend]
                rintro (hc | hc)
                · exact hf.2.1 hc
                · exact hnetl a ha hc)
              hdisj
            refine ⟨?_, hdis, ?_, hmtfa, ?_, hmni⟩
            · intro a ha
              simp only [keys_cons, List.mem_cons] at ha
              rcases ha with ha | ha
              · subst ha
                exact Or.inr (Or.inl
                  (hmae a (by rw [mem_keys_odExtend]; exact Or.inr rfl)))
              · exact hcov a ha
            · intro a ha
              rcases hsrc a ha with ha' | ha'
              · exact Or.inl ha'
              · exact Or.inr (by simp [ha'])
            · intro a ha
              exact hmae a (by rw [mem_keys_odExtend]; exact Or.inl ha)
        · cases h
    · -- no candidate chosen: non_injectable_errs changes
      obtain ⟨hcov, hdis, hsrc, hmtfa, hmae, hmni⟩ := ih _ _ h hnd.2
        (by
          intro a ha
          have hf := hfreshtl a ha
          refine ⟨hf.1, hf.2.1, ?_⟩
          rw [mem_keys_odExtend]
          rintro (hc | hc)
          · exact hf.2.2 hc
          · exact hnetl a ha hc)
        (by
          intro a ha
          intro hc
          rw [mem_keys_odExtend] at hc
          rcases hc with hc | hc
          · exact hdisj a ha hc
          · subst hc
            exact hfreshhd.1 ha)
      refine ⟨?_, hdis, ?_, hmtfa, hmae, ?_⟩
      · intro a ha
        simp only [keys_cons, List.mem_cons] at ha
        rcases ha with ha | ha
        · subst ha
          exact Or.inr (Or.inr
            (hmni a (by rw [mem_keys_odExtend]; exact Or.inr rfl)))
        · exact hcov a ha
      · intro a ha
        rcases hsrc a ha with ha' | ha'
        · rw [mem_keys_odExtend] at ha'
          rcases ha' with ha' | ha'
          · exact Or.inl ha'
          · exact Or.inr (by simp [ha'])
        · exact Or.inr (by simp [ha'])
      · intro a ha
        exact hmni a (by rw [mem_keys_odExtend]; exact Or.inl ha)

theorem _plan_root_errs (env : Env) (fuel : Nat) (n : Node) (ffk : Bool)
    (ov : Ov) (rov : Bool) (p : Plan) (errs : List ErrCase)
    (h : _plan env fuel n ffk [] ov rov = .ok p errs) : errs = [] := by
  cases fuel with
  | zero => cases h
  | succ fuel =>
    by_cases hext : env.externally_provided n = true
    · rw [_plan_succ, if_pos hext] at h
      injection h with h1 h2
      exact h2.symm
    · obtain ⟨s, _, herrs, _⟩ := _plan_root_ok_spec env fuel n ffk ov rov p errs
        (by simpa using hext) h
      exact herrs

theorem _plan_root_last (env : Env) (fuel : Nat) (n : Node) (ffk : Bool)
    (ov : Ov) (rov : Bool) (p : Plan) (errs : List ErrCase)
    (h : _plan env fuel n ffk [] ov rov = .ok p errs) :
    ∃ kw, p.steps.getLast? = some (n, kw) := by
  cases fuel with
  | zero => cases h
  | succ fuel =>
    by_cases hext : env.externally_provided n = true
    · rw [_plan_succ, if_pos hext] at h
      injection h with h1 h2
      refine ⟨[], ?_⟩
      rw [← h1]
      rfl
    · obtain ⟨s, _, _, _, _, hp⟩ := _plan_root_ok_spec env fuel n ffk ov rov p errs
        (by simpa using hext) h
      refine ⟨s.type_for_arg, ?_⟩
      rw [hp]
      simp

theorem _plan_root_ffk (env : Env) (fuel : Nat) (n : Node) (ffk : Bool)
    (ov : Ov) (rov : Bool) (p : Plan) (errs : List ErrCase)
    (hok : _plan env fuel n ffk [] ov rov = .ok p errs)
    (hnodup : (keys (env.requirements n)).Nodup) :
    (env.externally_provided n = true → p = ⟨[(n, [])], true⟩)
    ∧ (env.externally_provided n = false →
        ∃ kw, p.steps.getLast? = some (n, kw)
          ∧ (p.full_final_kwargs = true ↔
              ∀ a ∈ keys (env.requirements n), a ∈ keys kw)) := by
  cases fuel with
  | zero => cases hok
  | succ fuel =>
    constructor
    · intro hext
      rw [_plan_succ, if_pos hext] at hok
      injection hok with h1 h2
      exact h1.symm
    · intro hext
      obtain ⟨s, hloop, herrs, hae, hni, hp⟩ :=
        _plan_root_ok_spec env fuel n ffk ov rov p errs hext hok
      obtain ⟨hcov, hdis, hsrc, _, _, _⟩ :=
        planArgs_names env _ n ov rov _ _ _ hloop hnodup
          (by intro a ha; simp) (by intro a ha; simp at ha)
      refine ⟨s.type_for_arg, ?_, ?_⟩
      · rw [hp]
        simp
      · rw [hp]
        dsimp only
        constructor
        · intro hne a ha
          have hni' : s.non_injectable_errs = [] := by
            simpa [List.isEmpty_iff] using hne
          rcases hcov a ha with h1 | h1 | h1
          · exact h1
          · rw [hae] at h1
            simp at h1
          · rw [hni'] at h1
            simp at h1
        · intro hall
          by_contra hne
          obtain ⟨x, t, hxt⟩ : ∃ x t, s.non_injectable_errs = x :: t := by
            cases hni2 : s.non_injectable_errs with
            | nil =>
              rw [hni2] at hne
              exact absurd rfl hne
            | cons x t => exact ⟨x, t, rfl⟩
          have hx : x.1 ∈ keys s.non_injectable_errs := by
            rw [hxt]
            simp
          rcases hsrc x.1 hx with h1 | h1
          · simp at h1
          · exact hdis x.1 (hall x.1 h1) hx

theorem odContains_iff (od : List (Node × KwargsSpec)) (k : Node) :
    odContains od k = true ↔ k ∈ keys od := by
  induction od with
  | nil => simp [odContains]
  | cons hd tl ih =>
    obtain ⟨k', v'⟩ := hd
    simp only [odContains, List.any_cons, Bool.or_eq_true, beq_iff_eq, keys_cons,
      List.mem_cons]
    rw [odContains] at ih
    rw [ih]
    tauto


/-! ### Claim theorems -/

/-- Environment exhibiting the topology violation of claim C1:
`R=0, P=1, P2=2, X=3, C=4, D=5, Q=6`; `R` needs `p : P` and `q : Q`;
`P2` and `Q` both need `x : X`; `X` needs `c : C`. -/
def envC1 : Env :=
  ⟨fun n => n == 2 || n == 3 || n == 4 || n == 5 || n == 6,
   fun _ => false,
   fun n =>
     if n = 0 then [("p", [1]), ("q", [6])]
     else if n = 2 then [("x", [3])]
     else if n = 6 then [("x", [3])]
     else if n = 3 then [("c", [4])]
     else []⟩

/-- Overrides for claim C1: `P ↦ P2` and `C ↦ D`. -/
def ovC1 : Ov := fun n => if n = 1 then some 2 else if n = 4 then some 5 else none

/-- C1: the claimed topological invariant fails on the code.  With the
overrides `{P: P2, C: D}` and `recursive_overrides=False`, node `X` is
planned once inside `P2`'s subtree (where the override function has been
emptied, choosing `C` for its argument) and once inside `Q`'s subtree
(where the override maps `C` to `D`); merging the second subplan
overwrites `X`'s kwargs in place, so the step for `X` ends up referring
to `D`, whose step only comes later.  The returned plan is not
topologically ordered. -/
theorem c1_topology_violation :
    plan envC1 20 0 false ovC1 false
      = .ok ⟨[(4, []), (3, [("c", 5)]), (2, [("x", 3)]), (5, []),
              (6, [("x", 3)]), (0, [("p", 2), ("q", 6)])], true⟩ []
    ∧ topoOk [(4, []), (3, [("c", 5)]), (2, [("x", 3)]), (5, []),
              (6, [("x", 3)]), (0, [("p", 2), ("q", 6)])] = false := by
  decide

/-- C6: for an externally provided node `X`, `_plan` returns the
one-step plan `[(X, {})]` with `full_final_kwargs=True` and no errors,
for every introspector `r` (so `X`'s own requirements are never
queried), at any position in the recursion (any dependency stack). -/
theorem c6_external_short_circuit (env : Env) (fuel : Nat) (X : Node)
    (ffk : Bool) (stack : List Node) (ov : Ov) (rov : Bool)
    (hext : env.externally_provided X = true) :
    ∀ r : Node → List (String × List Node),
      _plan ⟨env.is_injectable, env.externally_provided, r⟩ (fuel + 1) X ffk
        stack ov rov = .ok ⟨[(X, [])], true⟩ [] := by
  intro r
  rw [_plan_succ]
  have hext' : (⟨env.is_injectable, env.externally_provided, r⟩ :
      Env).externally_provided X = true := hext
  rw [if_pos hext']

/-- Witness for C6 at a concrete input: node `0` is externally
provided; the introspector claims `0` needs `"z" : 9`, yet the step for
`0` has empty kwargs. -/
def envC6 : Env := ⟨fun _ => false, fun n => n == 0, fun _ => []⟩

theorem c6_external_short_circuit_w :
    _plan ⟨envC6.is_injectable, envC6.externally_provided,
        fun _ => [("z", [9])]⟩ 4 0 true [5] _empty_overrides true
      = .ok ⟨[(0, [])], true⟩ [] :=
  c6_external_short_circuit envC6 3 0 true [5] _empty_overrides true
    (by decide) (fun _ => [("z", [9])])

/-- C7: no node appears as the node of more than one step in any plan
returned by `plan`. -/
theorem c7_dedup (env : Env) (fuel : Nat) (F : Node) (ffk : Bool) (ov : Ov)
    (rov : Bool) (p : Plan) (errs : List ErrCase)
    (h : plan env fuel F ffk ov rov = .ok p errs) :
    (keys p.steps).Nodup :=
  _plan_ok_nodup env fuel (_may_override F ov rov).1 ffk []
    (_may_override F ov rov).2 rov p errs h

/-- Environment for the C7 witness: `0` needs `a : 1`; `1` is
injectable with no requirements. -/
def envC7 : Env :=
  ⟨fun n => n == 1, fun _ => false,
   fun n => if n = 0 then [("a", [1])] else []⟩

theorem c7_dedup_w : (keys ([(1, []), (0, [("a", 1)])] : List Step)).Nodup :=
  c7_dedup envC7 5 0 false _empty_overrides false
    ⟨[(1, []), (0, [("a", 1)])], true⟩ [] (by decide)

/-- C8: the injectability assertion of `_plan` never fires through the
public `plan` entry point, for any policies, overrides and root — in
particular even when the root is not injectable (the root is exempt). -/
theorem c8_assert_safe (env : Env) (fuel : Nat) (F : Node) (ffk : Bool)
    (ov : Ov) (rov : Bool) :
    isAssertFail (plan env fuel F ffk ov rov) = false := by
  have h := _plan_no_assert env fuel (_may_override F ov rov).1 ffk []
    (_may_override F ov rov).2 rov (by simp)
  cases hr : plan env fuel F ffk ov rov with
  | ok p e => rfl
  | raised a b => rfl
  | assertFail => exact absurd hr h
  | outOfFuel => rfl


/-- Environment for the cyclic example of C3: `A=0, B=1, C=2, D=3, E=4`
with `A:{e:[E]}, C:{a:[A],b:[B]}, D:{a:[A],c:[C]}, E:{b:[B],c:[C],d:[D]}`,
everything injectable, nothing externally provided. -/
def envC3 : Env :=
  ⟨fun n => n == 0 || n == 1 || n == 2 || n == 3 || n == 4,
   fun _ => false,
   fun n =>
     if n = 0 then [("e", [4])]
     else if n = 2 then [("a", [0]), ("b", [1])]
     else if n = 3 then [("a", [0]), ("c", [2])]
     else if n = 4 then [("b", [1]), ("c", [2]), ("d", [3])]
     else []⟩

/-- C3: when the node being expanded is already on the dependency
stack, `_plan` returns an empty plan with a single cyclic error case
referencing the stack plus this node (no further recursion); and on the
`A,B,C,D,E` example with nothing externally provided, `plan(E, ...)`
raises with cyclic cases recorded for arguments `c` and `d`. -/
theorem c3_cycle_detection (env : Env) (fuel : Nat) (node : Node) (ffk : Bool)
    (stack : List Node) (ov : Ov) (rov : Bool)
    (hext : env.externally_provided node = false)
    (hinj : env.is_injectable node = true)
    (hmem : node ∈ stack) :
    _plan env (fuel + 1) node ffk stack ov rov
      = .ok ⟨[], false⟩ [ErrCase.cyclic node stack]
    ∧ plan envC3 50 4 false _empty_overrides false
      = .raised 4 [("c", [ErrCase.cyclic 4 [4, 2, 0]]),
                   ("d", [ErrCase.cyclic 4 [4, 3, 0],
                          ErrCase.cyclic 4 [4, 3, 2, 0]])] := by
  constructor
  · rw [_plan_succ]
    rw [if_neg (by simp [hext])]
    rw [if_neg (by simp [hinj])]
    rw [if_pos hmem]
  · decide

theorem c3_cycle_detection_w :
    _plan envC3 8 0 true [0] _empty_overrides false
      = .ok ⟨[], false⟩ [ErrCase.cyclic 0 [0]]
    ∧ plan envC3 50 4 false _empty_overrides false
      = .raised 4 [("c", [ErrCase.cyclic 4 [4, 2, 0]]),
                   ("d", [ErrCase.cyclic 4 [4, 3, 0],
                          ErrCase.cyclic 4 [4, 3, 2, 0]])] :=
  c3_cycle_detection envC3 7 0 true [0] _empty_overrides false (by decide)
    (by decide) (by simp)

/-- Environment for the concrete part of C4: the root `0` depends on
`g : 1`, and `1` (injectable) has an argument `u` with no candidate
types at all. -/
def envC4 : Env :=
  ⟨fun n => n == 1, fun _ => false,
   fun n =>
     if n = 0 then [("g", [1])]
     else if n = 1 then [("u", ([] : List Node))]
     else []⟩

/-- Environment for the C4 witness: the root `0` depends on `a : 1`,
which resolves fully. -/
def envC4w : Env :=
  ⟨fun n => n == 1, fun _ => false,
   fun n => if n = 0 then [("a", [1])] else []⟩

/-- C4: chosen dependencies are always required to resolve fully,
whatever `full_final_kwargs` the caller passed: whenever `plan` returns
normally its error list is empty (a failed chosen dependency always
raises at the root), and on a concrete graph whose nested dependency
has an unannotated argument, `plan` raises `NonProvidableError` even
with `full_final_kwargs=False`. -/
theorem c4_nested_full_completion (env : Env) (fuel : Nat) (F : Node)
    (ffk : Bool) (ov : Ov) (rov : Bool) (p : Plan) (errs : List ErrCase)
    (h : plan env fuel F ffk ov rov = .ok p errs) :
    errs = []
    ∧ plan envC4 10 0 false _empty_overrides false
      = .raised 0 [("g", [ErrCase.lackingAnn "u" 1])] := by
  constructor
  · exact _plan_root_errs env fuel (_may_override F ov rov).1 ffk
      (_may_override F ov rov).2 rov p errs h
  · decide

theorem c4_nested_full_completion_w :
    ([] : List ErrCase) = []
    ∧ plan envC4 10 0 false _empty_overrides false
      = .raised 0 [("g", [ErrCase.lackingAnn "u" 1])] :=
  c4_nested_full_completion envC4w 5 0 false _empty_overrides false
    ⟨[(1, []), (0, [("a", 1)])], true⟩ [] (by decide)

/-- Environment for C5: `R=0` depends on `a : A` with `A=1`; `B=2`
depends on `a2 : A`; `A` and `B` injectable. -/
def envC5 : Env :=
  ⟨fun n => n == 1 || n == 2, fun _ => false,
   fun n =>
     if n = 0 then [("a", [1])]
     else if n = 2 then [("a2", [1])]
     else []⟩

/-- Overrides for C5: `A ↦ B` (`1 ↦ 2`). -/
def ovC5 : Ov := fun n => if n = 1 then some 2 else none

/-- Counterexample to C5 as stated: with `overrides = {A: B}` and
`recursive_overrides=False`, planning `R` (which depends on `A`) yields
a plan in which `A` DOES appear as a step, because `B`'s own subtree is
resolved without the override and `B` depends on `A`. -/
theorem c5_override_scoping_cex :
    plan envC5 10 0 false ovC5 false
      = .ok ⟨[(1, []), (2, [("a2", 1)]), (0, [("a", 2)])], true⟩ []
    ∧ (1, ([] : KwargsSpec))
        ∈ ([(1, []), (2, [("a2", 1)]), (0, [("a", 2)])] : List Step) := by
  decide

/-- C5 (amended): `_may_override` leaves a node unchanged (propagating
the same overrides function) when the override is absent or equal to
the node, and otherwise replaces it, propagating the original function
when `recursive_overrides` is true and the empty overrides function
when false.  Consequently, with `overrides = {A: B}` non-recursive,
planning a node depending on `A` binds that argument to `B` (never to
`A`), and `B`'s own dependency subtree is resolved without the mapping
— so `A` may reappear as a step through `B`'s own dependencies. -/
theorem c5_override_scoping (ov : Ov) (node m : Node) (rov : Bool) :
    (ov node = none → _may_override node ov rov = (node, ov))
    ∧ (ov node = some node → _may_override node ov rov = (node, ov))
    ∧ (ov node = some m → m ≠ node →
        _may_override node ov rov
          = (m, if rov = true then ov else _empty_overrides))
    ∧ plan envC5 10 0 false ovC5 false
      = .ok ⟨[(1, []), (2, [("a2", 1)]), (0, [("a", 2)])], true⟩ [] := by
  refine ⟨?_, ?_, ?_, by decide⟩
  · intro h
    rw [_may_override, h]
  · intro h
    rw [_may_override, h]
    dsimp only
    rw [if_pos rfl]
  · intro h hm
    rw [_may_override, h]
    dsimp only
    rw [if_neg hm]

theorem c5_override_scoping_w :
    _may_override 1 ovC5 false = (2, _empty_overrides)
    ∧ plan envC5 10 0 false ovC5 false
      = .ok ⟨[(1, []), (2, [("a2", 1)]), (0, [("a", 2)])], true⟩ [] :=
  ⟨(c5_override_scoping ovC5 1 2 false).2.2.1 (by decide) (by decide),
   (c5_override_scoping ovC5 1 2 false).2.2.2⟩

/-- Injectability policy shared by the two C9 environments. -/
def injC9 : Node → Bool := fun n => n == 0 || n == 2

/-- C9 requirements, first variant: `R=1` depends on `x : X` with
`X=0`; `X` has no requirements. -/
def reqC9a : Node → List (String × List Node) :=
  fun n => if n = 1 then [("x", [0])] else []

/-- C9 requirements, second variant: identical to `reqC9a` except at
`X=0`, which now requires `p : 2`. -/
def reqC9b : Node → List (String × List Node) :=
  fun n => if n = 0 then [("p", [2])] else reqC9a n

def envC9a : Env := ⟨injC9, fun _ => false, reqC9a⟩

def envC9b : Env := ⟨injC9, fun _ => false, reqC9b⟩

/-- Overrides for C9: `X ↦ R` (`0 ↦ 1`). -/
def ovC9 : Ov := fun n => if n = 0 then some 1 else none

/-- Counterexample to C9 as stated: with the root override `X ↦ R`
(non-recursive) and `R` depending on `X`, `X`'s own requirements ARE
inspected: changing only `X`'s requirements (from `reqC9a` to
`reqC9b`) changes the resulting plan, whose step for `X` is built from
those requirements. -/
theorem c9_root_override_cex :
    plan envC9a 10 0 false ovC9 false
      = .ok ⟨[(0, []), (1, [("x", 0)])], true⟩ []
    ∧ plan envC9b 10 0 false ovC9 false
      = .ok ⟨[(2, []), (0, [("p", 2)]), (1, [("x", 0)])], true⟩ []
    ∧ (0, [("p", 2)])
        ∈ ([(2, []), (0, [("p", 2)]), (1, [("x", 0)])] : List Step) := by
  decide

/-- C9 (amended): the overrides function is applied to the root before
planning: when `o(X) = R ≠ X`, `plan(X, ..)` is exactly the root
expansion of `R` with the scoping rule applied to `R`'s children as for
any other overridden node (original function if recursive, empty
otherwise), and any returned plan ends in a step for `R`.  (`X`'s own
requirements are not consulted for the root step itself, but they may
still be inspected if `X` reappears inside `R`'s dependency tree.) -/
theorem c9_root_override (env : Env) (fuel : Nat) (X R : Node) (ffk : Bool)
    (ov : Ov) (rov : Bool) (h1 : ov X = some R) (h2 : R ≠ X) :
    plan env fuel X ffk ov rov
      = _plan env fuel R ffk [] (if rov = true then ov else _empty_overrides) rov
    ∧ (∀ p errs, plan env fuel X ffk ov rov = .ok p errs →
        ∃ kw, p.steps.getLast? = some (R, kw)) := by
  have hmo : _may_override X ov rov
      = (R, if rov = true then ov else _empty_overrides) := by
    rw [_may_override, h1]
    dsimp only
    rw [if_neg h2]
  have hplan : plan env fuel X ffk ov rov
      = _plan env fuel R ffk []
          (if rov = true then ov else _empty_overrides) rov := by
    show _plan env fuel (_may_override X ov rov).1 ffk []
        (_may_override X ov rov).2 rov = _
    rw [hmo]
  refine ⟨hplan, ?_⟩
  intro p errs hp
  rw [hplan] at hp
  exact _plan_root_last env fuel R ffk _ rov p errs hp

theorem c9_root_override_w :
    plan envC9a 10 0 false ovC9 false
      = _plan envC9a 10 1 false []
          (if false = true then ovC9 else _empty_overrides) false :=
  (c9_root_override envC9a 10 0 1 false ovC9 false (by decide) (by decide)).1


/-- Environment for the C2 witness: root `0` has a parameter `a`
resolvable to `1` and a parameter `b` with no candidate types. -/
def envC2 : Env :=
  ⟨fun n => n == 1, fun _ => false,
   fun n =>
     if n = 0 then [("a", [1]), ("b", ([] : List Node))]
     else []⟩

/-- C2: for a root `F` with one parameter whose selector picks a
candidate `c` that fully resolves and one parameter with no acceptable
candidate, the root expansion with `full_final_kwargs=False` succeeds
and its final step omits the unresolved parameter `b` (its kwargs are
exactly `{a: c}`), while with `full_final_kwargs=True` it raises with
an error map having exactly one key `b`, holding a
`LackingAnnotationErrCase` when the candidate list was empty and a
`NonInjectableOrExternalErrCase` otherwise. -/
theorem c2_partial_vs_full (env : Env) (fuel : Nat) (F : Node) (a b : String)
    (tsA tsB : List Node) (c : Node) (ov ov1 ov2 : Ov) (rov : Bool) (sub : Plan)
    (hext : env.externally_provided F = false)
    (hreq : env.requirements F = [(a, tsA), (b, tsB)])
    (hsel1 : _select_type env tsA ov rov = (some c, ov1))
    (hsub : _plan env fuel c true ([] ++ [F]) ov1 rov = .ok sub [])
    (hsubF : F ∉ keys sub.steps)
    (hsel2 : _select_type env tsB ov rov = (none, ov2))
    (hovF : ov F = none) :
    plan env (fuel + 1) F false ov rov
      = .ok ⟨odUpdate [] sub.steps ++ [(F, [(a, c)])], false⟩ []
    ∧ plan env (fuel + 1) F true ov rov
      = .raised F [(b, [if tsB.isEmpty = true then ErrCase.lackingAnn b F
                        else ErrCase.nonInjectableOrExternal b F tsB])] := by
  have hplan : ∀ ffk : Bool, plan env (fuel + 1) F ffk ov rov
      = _plan env (fuel + 1) F ffk [] ov rov := by
    intro ffk
    show _plan env (fuel + 1) (_may_override F ov rov).1 ffk []
        (_may_override F ov rov).2 rov = _
    rw [_may_override, hovF]
  rw [hplan false, hplan true]
  have htriv : (([] : List ErrCase).isEmpty = true) := rfl
  have hloop : _planArgs env (fun m o => _plan env fuel m true ([] ++ [F]) o rov)
      F ov rov (env.requirements F) ⟨[], [], [], []⟩
      = .done ⟨odUpdate [] sub.steps, [(a, c)], [],
               [(b, [if tsB.isEmpty = true then ErrCase.lackingAnn b F
                     else ErrCase.nonInjectableOrExternal b F tsB])]⟩ := by
    rw [hreq]
    rw [_planArgs]
    rw [hsel1]
    dsimp only
    rw [if_neg (by simp [odContains])]
    rw [hsub]
    dsimp only
    rw [if_pos htriv]
    rw [_planArgs]
    rw [hsel2]
    dsimp only
    rw [_planArgs]
    rfl
  have hF : F ∉ keys (odUpdate ([] : List (Node × KwargsSpec)) sub.steps) := by
    rw [mem_keys_odUpdate]
    rintro (hc | hc)
    · simp at hc
    · exact hsubF hc
  have htriv2 : (([] : List (String × List ErrCase)).isEmpty = true) := rfl
  constructor
  · rw [_plan_succ]
    rw [if_neg (by simp [hext])]
    rw [if_neg (by simp)]
    rw [if_neg (List.not_mem_nil F)]
    rw [hloop]
    rw [finishPlan]
    rw [finishDone]
    rw [finishErrs]
    dsimp only
    rw [if_neg (by simp)]
    rw [if_pos htriv2]
    rw [odInsert_of_not_mem _ _ _ hF]
    rfl
  · rw [_plan_succ]
    rw [if_neg (by simp [hext])]
    rw [if_neg (by simp)]
    rw [if_neg (List.not_mem_nil F)]
    rw [hloop]
    rw [finishPlan]
    rw [finishDone]
    rw [finishErrs]
    dsimp only
    rw [if_pos (by simp [odUpdate, odInsert])]
    rfl

theorem c2_partial_vs_full_w :
    plan envC2 6 0 false _empty_overrides false
      = .ok ⟨[(1, []), (0, [("a", 1)])], false⟩ []
    ∧ plan envC2 6 0 true _empty_overrides false
      = .raised 0 [("b", [ErrCase.lackingAnn "b" 0])] :=
  c2_partial_vs_full envC2 5 0 "a" "b" [1] [] 1 _empty_overrides
    _empty_overrides _empty_overrides false ⟨[(1, [])], true⟩ (by decide)
    (by decide) rfl (by decide) (by decide) rfl rfl

/-- Environment for the C10 witness: root `0` has a resolvable
parameter `a : 1` and an unresolvable parameter `b`. -/
def envC10 : Env :=
  ⟨fun n => n == 1, fun _ => false,
   fun n =>
     if n = 0 then [("a", [1]), ("b", ([] : List Node))]
     else []⟩

/-- C10: when `plan` returns a plan and the effective root (the root
after the root override) is not externally provided, the plan's
`full_final_kwargs` attribute is true exactly when every parameter
name reported by the introspector for the effective root appears as a
key of the final step's kwargs; when the effective root is externally
provided, the returned plan is the one-step plan with
`full_final_kwargs=True`. -/
theorem c10_full_final_kwargs (env : Env) (fuel : Nat) (F : Node) (ffk : Bool)
    (ov : Ov) (rov : Bool) (p : Plan) (errs : List ErrCase)
    (hok : plan env fuel F ffk ov rov = .ok p errs)
    (hnodup : (keys (env.requirements (_may_override F ov rov).1)).Nodup) :
    (env.externally_provided (_may_override F ov rov).1 = true →
      p = ⟨[((_may_override F ov rov).1, [])], true⟩)
    ∧ (env.externally_provided (_may_override F ov rov).1 = false →
        ∃ kw, p.steps.getLast? = some ((_may_override F ov rov).1, kw)
          ∧ (p.full_final_kwargs = true ↔
              ∀ a ∈ keys (env.requirements (_may_override F ov rov).1),
                a ∈ keys kw)) :=
  _plan_root_ffk env fuel (_may_override F ov rov).1 ffk
    (_may_override F ov rov).2 rov p errs hok hnodup

theorem c10_full_final_kwargs_w :
    (envC10.externally_provided (_may_override 0 _empty_overrides false).1 = true →
      (⟨[(1, []), (0, [("a", 1)])], false⟩ : Plan)
        = ⟨[((_may_override 0 _empty_overrides false).1, [])], true⟩)
    ∧ (envC10.externally_provided (_may_override 0 _empty_overrides false).1 = false →
        ∃ kw, ([(1, []), (0, [("a", 1)])] : List Step).getLast?
            = some ((_may_override 0 _empty_overrides false).1, kw)
          ∧ ((false = true) ↔
              ∀ a ∈ keys (envC10.requirements
                  (_may_override 0 _empty_overrides false).1),
                a ∈ keys kw)) :=
  c10_full_final_kwargs envC10 9 0 false _empty_overrides false
    ⟨[(1, []), (0, [("a", 1)])], false⟩ [] (by decide) (by decide)

end Andi
